import Mathlib

/-!
Verification development for the adaptive (FGK-style) Huffman codec of
libraries/svc/source/huffman.cpp.  The file embeds the code shallowly:

* aterms are modelled by the inductive type ATerm; the two reserved
  process-wide constants ESCAPE_SEQUENCE and NO_ATERM of huffman.cpp are
  distinguished constructors, the default-constructed (null) aterm is a
  third one, ordinary user symbols are applications or integers.
* struct HFnode and HFtree are records; the node arena is a list indexed
  by natural-number handles, parent and child pointers are Option Nat.
* The bit stream is a list of tokens.  A token is either a single bit
  (BSwriteBit, BSreadBit) or one literal emitted by the LZ literal coder
  (LZwriteATerm and friends), whose framing the specification treats as an
  opaque black box interleaved between code words.
* blocklist.c, hashtable.c, lz.c and bitstream.c are not part of the
  sources; the sibling index (BLinsert, BLswap, Blast, Bprevious), the
  hash table (HTmember, HTgetPtr, HTsetPtr, HTinsert) and the literal
  coder are modelled from the specification, as documented on each
  definition.

All definitions are executable; theorems about concrete runs are settled
by kernel evaluation.
-/

namespace SVC

/-- Model of atermpp::aterm as used by huffman.cpp: the null (default
constructed) term, the two reserved constants built in HFinit, integer
terms (aterm_int) and opaque application terms standing for all other
user symbols. -/
inductive ATerm where
  | null : ATerm
  | escSeq : ATerm
  | noATerm : ATerm
  | int (n : Int) : ATerm
  | appl (n : Nat) : ATerm
deriving DecidableEq, Repr

/-- The reserved escape marker ESC(NEW) built in HFinit. -/
def ESCAPE_SEQUENCE : ATerm := ATerm.escSeq

/-- The reserved end-of-stream sentinel ESC(NIL) built in HFinit. -/
def NO_ATERM : ATerm := ATerm.noATerm

/-- Modelled from the spec: the distinguished sentinel integer of the
index variant (the constant NO_INT used by huffman.cpp is defined in a
header that is not part of the sources).  Its concrete value is
irrelevant to the engine; it only has to be a reserved value. -/
def NO_INT : Int := -2147483648

/-- One element of the bit stream: a plain bit, or one literal written by
the LZ literal coder.  The specification treats literal framing as an
opaque black box whose bits are interleaved between code words, so a
literal is modelled as one indivisible token. -/
inductive Tok where
  | bit (b : Bool) : Tok
  | lit (t : ATerm) : Tok
deriving DecidableEq, Repr

/-- struct HFnode of huffman.h: child and parent handles, weight, term.
The intrusive next/previous/block fields of the sibling index are
represented by the order list of HFtree instead. -/
structure HFnode where
  high : Option Nat
  low : Option Nat
  parent : Option Nat
  frequency : Nat
  term : ATerm
deriving DecidableEq, Repr

/-- HFtree of huffman.h: codes is the root handle, top the handle of the
escape leaf, terms the hash table (association list, index = slot), and
order the sibling index as a list of handles (the block structure of
blocklist.c is recovered from it as maximal runs of equal weight). -/
structure HFtree where
  nodes : List HFnode
  codes : Nat
  top : Nat
  terms : List (ATerm × Option Nat)
  order : List Nat
deriving DecidableEq, Repr

def defaultNode : HFnode :=
  { high := none, low := none, parent := none, frequency := 0, term := ATerm.null }

/-- Dereference a node handle. -/
def getN (st : HFtree) (i : Nat) : HFnode := st.nodes.getD i defaultNode

/-- Overwrite the node behind a handle. -/
def setN (st : HFtree) (i : Nat) (n : HFnode) : HFtree :=
  { st with nodes := st.nodes.set i n }

/-- BSwriteBit: append one bit to the output stream. -/
def BSwriteBit (out : List Tok) (b : Bool) : List Tok := out ++ [Tok.bit b]

/-- BSreadBit: consume one bit from the input stream; fails at end of
input (and on a literal token, which in the byte-level original would be
a desynchronised read of literal bits as path bits). -/
def BSreadBit : List Tok → Option (Bool × List Tok)
  | Tok.bit b :: r => some (b, r)
  | _ => none

/-- Modelled from the spec: LZwriteATerm of the literal coder serialises
one symbol verbatim onto the stream. -/
def LZwriteATerm (out : List Tok) (t : ATerm) : List Tok := out ++ [Tok.lit t]

/-- Modelled from the spec: LZreadATerm recovers the symbol written by
LZwriteATerm, failing when the stream does not hold a literal. -/
def LZreadATerm : List Tok → Option (ATerm × List Tok)
  | Tok.lit t :: r => some (t, r)
  | _ => none

/-- Modelled from the spec: LZwriteInt serialises one integer literal. -/
def LZwriteInt (out : List Tok) (i : Int) : List Tok := out ++ [Tok.lit (ATerm.int i)]

/-- Modelled from the spec: LZreadInt recovers the integer written by
LZwriteInt, failing when the stream does not hold an integer literal. -/
def LZreadInt : List Tok → Option (Int × List Tok)
  | Tok.lit (ATerm.int i) :: r => some (i, r)
  | _ => none

/-- Modelled from the spec: HTmember returns the slot of a term already
registered in the table. -/
def HTmember (terms : List (ATerm × Option Nat)) (t : ATerm) : Option Nat :=
  terms.findIdx? (fun e => e.1 == t)

/-- Modelled from the spec: HTgetPtr returns the node pointer stored in a
slot (the table is shared with the container, so a slot may hold a term
without a node pointer). -/
def HTgetPtr (terms : List (ATerm × Option Nat)) (i : Nat) : Option Nat :=
  (terms.getD i (ATerm.null, none)).2

/-- Modelled from the spec: HTsetPtr overwrites the node pointer of a
slot. -/
def HTsetPtr (terms : List (ATerm × Option Nat)) (i : Nat) (p : Nat) :
    List (ATerm × Option Nat) :=
  terms.set i ((terms.getD i (ATerm.null, none)).1, some p)

/-- Modelled from the spec: HTinsert registers a term with its node
pointer in a fresh slot. -/
def HTinsert (terms : List (ATerm × Option Nat)) (t : ATerm) (p : Nat) :
    List (ATerm × Option Nat) :=
  terms ++ [(t, some p)]

/-- Modelled from the spec: BLinsert registers a node in the sibling
index.  Section 4.2 of the specification places a newly created node
immediately after the escape leaf, and invariant 4 of section 3 keeps the
escape leaf first in sibling order, so the new handle goes to the second
position of the order list (every call site inserts a weight-0 node and
the escape leaf is the permanent first weight-0 node). -/
def BLinsert (st : HFtree) (n : Nat) : HFtree :=
  { st with order := match st.order with
      | [] => [n]
      | h :: r => h :: n :: r }

/-- Modelled from the spec: Blast returns the leader of the block of a
node, i.e. the last node of the maximal contiguous run of equal-weight
nodes around it in sibling order (section 4.3). -/
def Blast (st : HFtree) (c : Nat) : Nat :=
  let w := (getN st c).frequency
  (((st.order.dropWhile (fun m => m != c)).takeWhile
      (fun m => (getN st m).frequency == w)).getLastD c)

/-- Modelled from the spec: Bprevious returns the node immediately before
a given node in sibling order (constant-time neighbour traversal of
section 4.3), or nothing at the front of the order. -/
def Bprevious (st : HFtree) (x : Nat) : Option Nat :=
  match st.order.findIdx? (fun m => m == x) with
  | some (i + 1) => st.order.get? i
  | _ => none

/-- HFsuccessor of huffman.cpp: the swap candidate for the update loop,
computed from the last and second-to-last nodes of the current block,
excluding the candidates related to the current node as parent or
child. -/
def HFsuccessor (st : HFtree) (current : Nat) : Option Nat :=
  let last := Blast st current
  let prelast := Bprevious st last
  if last = current then
    none
  else
    if prelast = some current then
      if (getN st current).parent = some last ∨ (getN st last).parent = some current then
        none
      else
        some last
    else
      if ((getN st current).parent == prelast) ||
          (match prelast with
            | some pl => (getN st pl).parent == some current
            | none => false) then
        if (getN st current).parent = some last ∨ (getN st last).parent = some current then
          none
        else
          some last
      else
        prelast

/-- Modelled from the spec: BLswap performs one step of the sibling-index
bookkeeping of the update loop, exchanging the order positions of the two
nodes (section 4.3 swap) when a partner is given, and carrying out the
weight increment of the current node prescribed by the update loop of
section 4.2 (huffman.cpp itself never touches frequency during an
update, so the increment lives in the block list). -/
def BLswap (st : HFtree) (current : Nat) (succ : Option Nat) : HFtree :=
  let st1 :=
    match succ with
    | none => st
    | some s =>
        let f := fun m => if m = current then s else if m = s then current else m
        { st with order := st.order.map f }
  let c := getN st1 current
  setN st1 current { c with frequency := c.frequency + 1 }

/-- Position of a node in its parent: root slot, low slot or high slot.
This models the parent1Ptr / parent2Ptr computation of HFswap. -/
inductive Slot where
  | root : Slot
  | lo (p : Nat) : Slot
  | hi (p : Nat) : Slot
deriving DecidableEq, Repr

def slotOf (st : HFtree) (n : Nat) : Slot :=
  if st.codes = n then Slot.root
  else
    match (getN st n).parent with
    | none => Slot.root
    | some p => if (getN st p).low = some n then Slot.lo p else Slot.hi p

def setSlot (st : HFtree) (s : Slot) (v : Nat) : HFtree :=
  match s with
  | Slot.root => { st with codes := v }
  | Slot.lo p => setN st p { getN st p with low := some v }
  | Slot.hi p => setN st p { getN st p with high := some v }

/-- HFswap of huffman.cpp: exchange two nodes in the tree by rewriting
the two child slots and swapping the two parent pointers, in the order
the source performs the assignments. -/
def HFswap (st : HFtree) (n1 n2 : Nat) : HFtree :=
  let s1 := slotOf st n1
  let s2 := slotOf st n2
  let p1 := (getN st n1).parent
  let p2 := (getN st n2).parent
  let st1 := setSlot st s1 n2
  let st2 := setSlot st1 s2 n1
  let st3 := setN st2 n2 { getN st2 n2 with parent := p1 }
  setN st3 n1 { getN st3 n1 with parent := p2 }

/-- The body of the update loop of HFupdate, with explicit fuel standing
for the finiteness of the parent chain (the C loop walks parents until
the root). -/
def HFupdateLoop : Nat → HFtree → Nat → HFtree
  | 0, st, _ => st
  | fuel + 1, st, current =>
    let succ := HFsuccessor st current
    let st1 :=
      match succ with
      | none => BLswap st current none
      | some s => HFswap (BLswap st current (some s)) current s
    match (getN st1 current).parent with
    | none => st1
    | some p => HFupdateLoop fuel st1 p

/-- HFupdate of huffman.cpp: walk from the given node to the root,
swapping with the HFsuccessor candidate when there is one and
incrementing the weight at every step.  The fuel bound exceeds the
length of any simple parent chain. -/
def HFupdate (st : HFtree) (current : Nat) : HFtree :=
  HFupdateLoop (st.nodes.length + 1) st current

/-- HFadd of huffman.cpp: insert a term at the escape leaf.  When the
escape leaf is the only child of its parent the new leaf becomes the
missing high child; otherwise a fresh interior node takes the place of
the escape leaf, adopting it as low child and a fresh leaf for the term
as high child.  Returns the new state and the handle of the new leaf. -/
def HFadd (st : HFtree) (term : ATerm) : HFtree × Nat :=
  let tmp := st.top
  match (getN st tmp).parent with
  | none => (st, tmp)
  | some p =>
    if (getN st p).high = none then
      let newId := st.nodes.length
      let st1 := { st with nodes := st.nodes ++
        [{ high := none, low := none, parent := some p, frequency := 0, term := term }] }
      let st2 := setN st1 p { getN st1 p with high := some newId }
      let st3 := BLinsert st2 newId
      let st4 :=
        match HTmember st3.terms term with
        | some i => { st3 with terms := HTsetPtr st3.terms i newId }
        | none => { st3 with terms := HTinsert st3.terms term newId }
      (st4, newId)
    else
      let nI := st.nodes.length
      let nL := st.nodes.length + 1
      let st1 := { st with nodes := st.nodes ++
        [{ high := none, low := none, parent := some p,
           frequency := (getN st tmp).frequency, term := ATerm.null }] }
      let st2 :=
        if (getN st1 p).low = some tmp then
          setN st1 p { getN st1 p with low := some nI }
        else
          setN st1 p { getN st1 p with high := some nI }
      let st3 := setN st2 nI { getN st2 nI with low := some tmp }
      let st4 := setN st3 tmp { getN st3 tmp with parent := some nI }
      let st5 := { st4 with nodes := st4.nodes ++
        [{ high := none, low := none, parent := some nI, frequency := 0, term := term }] }
      let st6 := setN st5 nI { getN st5 nI with high := some nL }
      let st7 := BLinsert st6 nI
      let st8 := BLinsert st7 nL
      let st9 :=
        match HTmember st8.terms term with
        | some i => { st8 with terms := HTsetPtr st8.terms i nL }
        | none => { st8 with terms := HTinsert st8.terms term nL }
      (st9, nL)

/-- HFwriteCode of huffman.cpp: walk from the leaf to the root through
parent pointers and emit, in most-significant-first order, bit 1 for a
high-child step and bit 0 for a low-child step.  Fuel bounds the length
of the parent chain. -/
def HFwriteCode : Nat → HFtree → Nat → List Tok → List Tok
  | 0, _, _, out => out
  | fuel + 1, st, n, out =>
    match (getN st n).parent with
    | none => out
    | some p =>
      let out1 := HFwriteCode fuel st p out
      BSwriteBit out1 (if (getN st p).high = some n then true else false)

/-- HFinit of huffman.cpp: the two-node initial tree.  Handle 0 is the
root (weight 0, null term, no high child), handle 1 the escape leaf
(weight 0) in the low slot; both are registered in the sibling index,
escape leaf first.  The terms table is supplied by the caller. -/
def HFinit (terms : List (ATerm × Option Nat)) : HFtree :=
  let st : HFtree :=
    { nodes :=
        [{ high := none, low := some 1, parent := none, frequency := 0, term := ATerm.null },
         { high := none, low := none, parent := some 0, frequency := 0,
           term := ESCAPE_SEQUENCE }],
      codes := 0, top := 1, terms := terms, order := [] }
  let st1 := BLinsert st 1
  BLinsert st1 0

/-- The shared unknown-symbol branch of HFencodeATerm: emit the path to
the escape leaf, write the literal, insert the term and update from the
new leaf.  The commented-out escape-path update of the source (the OEPS
comment) is absent. -/
def HFencodeUnknown (st : HFtree) (out : List Tok) (term : ATerm) :
    HFtree × List Tok × Nat :=
  let tmp := st.top
  let out1 := HFwriteCode (st.nodes.length + 1) st tmp out
  let out2 := LZwriteATerm out1 term
  let r := HFadd st term
  let st1 := HFupdate r.1 r.2
  (st1, out2, 0)

/-- HFencodeATerm of huffman.cpp: a null term is replaced by the
NO_ATERM sentinel; a term with a registered leaf is emitted as the path
to that leaf followed by an update; an unknown term goes through the
escape branch.  Returns the new state, the extended output stream and
the int return value of the source (1 known, 0 new). -/
def HFencodeATerm (st : HFtree) (out : List Tok) (t : ATerm) :
    HFtree × List Tok × Nat :=
  let term := if t = ATerm.null then NO_ATERM else t
  match HTmember st.terms term with
  | some i =>
    match HTgetPtr st.terms i with
    | some tmp =>
      let out1 := HFwriteCode (st.nodes.length + 1) st tmp out
      let st1 := HFupdate st tmp
      (st1, out1, 1)
    | none => HFencodeUnknown st out term
  | none => HFencodeUnknown st out term

/-- The unknown-symbol branch of HFencodeIndex (literal written by the
integer variant of the literal coder). -/
def HFencodeIndexUnknown (st : HFtree) (out : List Tok) (index : Int) :
    HFtree × List Tok × Nat :=
  let tmp := st.top
  let out1 := HFwriteCode (st.nodes.length + 1) st tmp out
  let out2 := LZwriteInt out1 index
  let r := HFadd st (ATerm.int index)
  let st1 := HFupdate r.1 r.2
  (st1, out2, 0)

/-- HFencodeIndex of huffman.cpp: the integer is wrapped as an aterm_int
and encoded through the same tree as the term variant. -/
def HFencodeIndex (st : HFtree) (out : List Tok) (index : Int) :
    HFtree × List Tok × Nat :=
  let term := ATerm.int index
  match HTmember st.terms term with
  | some n =>
    match HTgetPtr st.terms n with
    | some tmp =>
      let out1 := HFwriteCode (st.nodes.length + 1) st tmp out
      let st1 := HFupdate st tmp
      (st1, out1, 1)
    | none => HFencodeIndexUnknown st out index
  | none => HFencodeIndexUnknown st out index

/-- The descent loop of HFdecodeATerm.  The result is the new state, the
remaining stream, the value left in the output parameter term, and the
int return value of the source.  Fuel bounds the number of iterations
(each non-returning iteration consumes one stream token, so the wrapper
fuel is never exhausted). -/
def HFdecodeATermLoop :
    Nat → List Tok → HFtree → ATerm → Option Nat → HFtree × List Tok × ATerm × Nat
  | 0, stream, st, term, _ => (st, stream, term, 0)
  | _ + 1, stream, st, term, none => (st, stream, term, 1)
  | fuel + 1, stream, st, term, some cur =>
    if (getN st cur).high = none ∧ (getN st cur).low = none then
      let term1 := (getN st cur).term
      if term1 = ESCAPE_SEQUENCE then
        match LZreadATerm stream with
        | some (t, stream1) =>
          let r := HFadd st t
          let st1 := HFupdate r.1 r.2
          if t = NO_ATERM then (st1, stream1, ATerm.null, 0) else (st1, stream1, t, 1)
        | none => (st, stream, term1, 0)
      else
        let st1 := HFupdate st cur
        if term1 = NO_ATERM then (st1, stream, ATerm.null, 0) else (st1, stream, term1, 1)
    else
      match BSreadBit stream with
      | some (b, stream1) =>
        HFdecodeATermLoop fuel stream1 st term
          (if b then (getN st cur).high else (getN st cur).low)
      | none => (st, stream, term, 0)

/-- HFdecodeATerm of huffman.cpp: descend from the root consuming one bit
per interior node; at a leaf either return its term (after an update) or,
at the escape leaf, read a literal, insert it and update; the NO_ATERM
sentinel is turned into a null term with return value 0. -/
def HFdecodeATerm (stream : List Tok) (st : HFtree) (termIn : ATerm) :
    HFtree × List Tok × ATerm × Nat :=
  HFdecodeATermLoop (stream.length + 1) stream st termIn (some st.codes)

/-- The value of ((aterm_int)term).value() in huffman.cpp; on a term that
is not an integer the cast has no defined meaning and the model returns
0. -/
def atermIntValue : ATerm → Int
  | ATerm.int n => n
  | _ => 0

/-- The descent loop of HFdecodeIndex, mirroring HFdecodeATermLoop with
the integer literal coder and the NO_INT sentinel. -/
def HFdecodeIndexLoop :
    Nat → List Tok → HFtree → Int → Option Nat → HFtree × List Tok × Int × Nat
  | 0, stream, st, index, _ => (st, stream, index, 0)
  | _ + 1, stream, st, index, none => (st, stream, index, 1)
  | fuel + 1, stream, st, index, some cur =>
    if (getN st cur).high = none ∧ (getN st cur).low = none then
      let term1 := (getN st cur).term
      if term1 = ESCAPE_SEQUENCE then
        match LZreadInt stream with
        | some (i, stream1) =>
          let r := HFadd st (ATerm.int i)
          let st1 := HFupdate r.1 r.2
          (st1, stream1, i, if i = NO_INT then 0 else 1)
        | none => (st, stream, index, 0)
      else
        let st1 := HFupdate st cur
        let i := atermIntValue term1
        (st1, stream, i, if i = NO_INT then 0 else 1)
    else
      match BSreadBit stream with
      | some (b, stream1) =>
        HFdecodeIndexLoop fuel stream1 st index
          (if b then (getN st cur).high else (getN st cur).low)
      | none => (st, stream, index, 0)

/-- HFdecodeIndex of huffman.cpp. -/
def HFdecodeIndex (stream : List Tok) (st : HFtree) (indexIn : Int) :
    HFtree × List Tok × Int × Nat :=
  HFdecodeIndexLoop (stream.length + 1) stream st indexIn (some st.codes)

/-- Encode a list of terms in sequence, threading state and output. -/
def encATermSeq (st : HFtree) (out : List Tok) : List ATerm → HFtree × List Tok
  | [] => (st, out)
  | t :: r =>
    let e := HFencodeATerm st out t
    encATermSeq e.1 e.2.1 r

/-- Weights of the sibling order, first to last. -/
def orderWeights (st : HFtree) : List Nat :=
  st.order.map (fun n => (getN st n).frequency)

/-- Decidable check that a list of weights is non-decreasing. -/
def nonDecreasing : List Nat → Bool
  | [] => true
  | [_] => true
  | a :: b :: r => if a ≤ b then nonDecreasing (b :: r) else false

/-- Claim C2, first clause, as a decidable check on a state: listing all
nodes in sibling order yields non-decreasing weights. -/
def siblingNonDecreasing (st : HFtree) : Bool :=
  nonDecreasing (orderWeights st)

/-- Decidable ancestor check: a is a strict ancestor of n (walking at
most fuel parent steps). -/
def isAncestor (st : HFtree) (a : Nat) : Nat → Nat → Bool
  | 0, _ => false
  | fuel + 1, n =>
    match (getN st n).parent with
    | none => false
    | some p => if p = a then true else isAncestor st a fuel p

/-- The symbol A of the concrete scenarios of the specification. -/
def termA : ATerm := ATerm.appl 0

/-- The symbol B of the concrete scenarios of the specification. -/
def termB : ATerm := ATerm.appl 1

/-- The symbol C of the concrete scenarios of the specification. -/
def termC : ATerm := ATerm.appl 2

/-- A freshly initialised engine with an empty terms table. -/
def st0 : HFtree := HFinit []

/-- Encoder state after encoding the single symbol A on a fresh engine. -/
def stA : HFtree := (encATermSeq st0 [] [termA]).1

/-- Encoder state after encoding A, B, C on a fresh engine.  Node
handles: 0 root, 1 escape leaf, 2 leaf A, 3 and 5 interior nodes, 4 leaf
B, 6 leaf C. -/
def stABC : HFtree := (encATermSeq st0 [] [termA, termB, termC]).1

/-- Encoder state after encoding A, B, C, C on a fresh engine. -/
def stABCC : HFtree := (encATermSeq st0 [] [termA, termB, termC, termC]).1

end SVC

namespace SVC

theorem length_setN (st : HFtree) (i : Nat) (n : HFnode) :
    (setN st i n).nodes.length = st.nodes.length := by
  simp [setN]

theorem getN_setN_self (st : HFtree) (i : Nat) (n : HFnode)
    (h : i < st.nodes.length) : getN (setN st i n) i = n := by
  simp [getN, setN, List.getD_eq_getElem?_getD, List.getElem?_set_self, h]

theorem getN_setN_ne (st : HFtree) (i j : Nat) (n : HFnode) (h : j ≠ i) :
    getN (setN st i n) j = getN st j := by
  simp [getN, setN, List.getD_eq_getElem?_getD, List.getElem?_set_ne (Ne.symm h)]

theorem getN_appendOne_lt (st : HFtree) (n : HFnode) (j : Nat)
    (h : j < st.nodes.length) :
    getN { st with nodes := st.nodes ++ [n] } j = getN st j := by
  simp [getN, List.getD_eq_getElem?_getD, List.getElem?_append, h]

theorem getN_appendOne_self (st : HFtree) (n : HFnode) :
    getN { st with nodes := st.nodes ++ [n] } st.nodes.length = n := by
  simp [getN, List.getD_eq_getElem?_getD, List.getElem?_append_right (le_refl _)]

/-- Classification of the failure returns of the term-decoder loop: with
a non-escape input value in the output parameter, a run that returns 0
ends in one of three ways: the sentinel was decoded and the output is the
null term; the literal coder failed after the escape leaf and the output
is the escape marker, the engine untouched; or the bit stream was
exhausted and the output still holds the input value, the engine
untouched. -/
theorem decATermLoop_ret0 (fuel : Nat) :
    ∀ (stream : List Tok) (st : HFtree) (term : ATerm) (cur : Option Nat),
      term ≠ ESCAPE_SEQUENCE →
      (HFdecodeATermLoop fuel stream st term cur).2.2.2 = 0 →
      ((HFdecodeATermLoop fuel stream st term cur).2.2.1 = ATerm.null
        ∨ ((HFdecodeATermLoop fuel stream st term cur).2.2.1 = ESCAPE_SEQUENCE
            ∧ (HFdecodeATermLoop fuel stream st term cur).1 = st)
        ∨ ((HFdecodeATermLoop fuel stream st term cur).2.2.1 = term
            ∧ (HFdecodeATermLoop fuel stream st term cur).1 = st)) := by
  induction fuel with
  | zero =>
    intro stream st term cur _ _
    exact Or.inr (Or.inr ⟨rfl, rfl⟩)
  | succ n ih =>
    intro stream st term cur hterm hret
    cases cur with
    | none => simp [HFdecodeATermLoop] at hret
    | some c =>
      by_cases hleaf : (getN st c).high = none ∧ (getN st c).low = none
      · by_cases hesc : (getN st c).term = ESCAPE_SEQUENCE
        · rcases hlz : LZreadATerm stream with _ | ⟨t, s1⟩
          · simp only [HFdecodeATermLoop, if_pos hleaf, if_pos hesc, hlz]
            exact Or.inr (Or.inl ⟨hesc, trivial⟩)
          · by_cases ht : t = NO_ATERM
            · simp only [HFdecodeATermLoop, if_pos hleaf, if_pos hesc, hlz, if_pos ht]
              exact Or.inl trivial
            · simp only [HFdecodeATermLoop, if_pos hleaf, if_pos hesc, hlz,
                if_neg ht] at hret
              exact absurd hret one_ne_zero
        · by_cases hno : (getN st c).term = NO_ATERM
          · simp only [HFdecodeATermLoop, if_pos hleaf, if_neg hesc, if_pos hno]
            exact Or.inl trivial
          · simp only [HFdecodeATermLoop, if_pos hleaf, if_neg hesc, if_neg hno] at hret
            exact absurd hret one_ne_zero
      · rcases hbs : BSreadBit stream with _ | ⟨b, s1⟩
        · simp only [HFdecodeATermLoop, if_neg hleaf, hbs]
          exact Or.inr (Or.inr ⟨trivial, trivial⟩)
        · simp only [HFdecodeATermLoop, if_neg hleaf, hbs] at hret ⊢
          exact ih s1 st term _ hterm hret

/-- Classification of the failure returns of the index-decoder loop: a
run that returns 0 either decoded the NO_INT sentinel (through the
escape leaf or through an existing sentinel leaf), or failed leaving the
output parameter at its input value and the engine untouched. -/
theorem decIndexLoop_ret0 (fuel : Nat) :
    ∀ (stream : List Tok) (st : HFtree) (index : Int) (cur : Option Nat),
      (HFdecodeIndexLoop fuel stream st index cur).2.2.2 = 0 →
      ((HFdecodeIndexLoop fuel stream st index cur).2.2.1 = NO_INT
        ∨ ((HFdecodeIndexLoop fuel stream st index cur).2.2.1 = index
            ∧ (HFdecodeIndexLoop fuel stream st index cur).1 = st)) := by
  induction fuel with
  | zero =>
    intro stream st index cur _
    exact Or.inr ⟨rfl, rfl⟩
  | succ n ih =>
    intro stream st index cur hret
    cases cur with
    | none => simp [HFdecodeIndexLoop] at hret
    | some c =>
      by_cases hleaf : (getN st c).high = none ∧ (getN st c).low = none
      · by_cases hesc : (getN st c).term = ESCAPE_SEQUENCE
        · rcases hlz : LZreadInt stream with _ | ⟨i, s1⟩
          · simp only [HFdecodeIndexLoop, if_pos hleaf, if_pos hesc, hlz]
            exact Or.inr ⟨trivial, trivial⟩
          · by_cases hi : i = NO_INT
            · simp only [HFdecodeIndexLoop, if_pos hleaf, if_pos hesc, hlz, if_pos hi]
              exact Or.inl hi
            · simp only [HFdecodeIndexLoop, if_pos hleaf, if_pos hesc, hlz,
                if_neg hi] at hret
              exact absurd hret one_ne_zero
        · by_cases hi : atermIntValue (getN st c).term = NO_INT
          · simp only [HFdecodeIndexLoop, if_pos hleaf, if_neg hesc, if_pos hi]
            exact Or.inl hi
          · simp only [HFdecodeIndexLoop, if_pos hleaf, if_neg hesc, if_neg hi] at hret
            exact absurd hret one_ne_zero
      · rcases hbs : BSreadBit stream with _ | ⟨b, s1⟩
        · simp only [HFdecodeIndexLoop, if_neg hleaf, hbs]
          exact Or.inr ⟨trivial, trivial⟩
        · simp only [HFdecodeIndexLoop, if_neg hleaf, hbs] at hret ⊢
          exact ih s1 st index _ hret

theorem getD_set_self {a : Type} (l : List a) (i j : Nat) (x d : a)
    (h1 : j = i) (h2 : i < l.length) : (l.set i x).getD j d = x := by
  subst h1
  simp [List.getD_eq_getElem?_getD, List.getElem?_set_self, h2]

theorem getD_set_ne {a : Type} (l : List a) (i j : Nat) (x d : a)
    (h : j ≠ i) : (l.set i x).getD j d = l.getD j d := by
  simp [List.getD_eq_getElem?_getD, List.getElem?_set_ne (Ne.symm h)]

theorem getD_append_lt {a : Type} (l : List a) (x d : a) (j : Nat)
    (h : j < l.length) : (l ++ [x]).getD j d = l.getD j d := by
  simp [List.getD_eq_getElem?_getD, List.getElem?_append, h]

theorem getD_append_self {a : Type} (l : List a) (x d : a) (j : Nat)
    (h : j = l.length) : (l ++ [x]).getD j d = x := by
  subst h
  simp [List.getD_eq_getElem?_getD, List.getElem?_append_right (le_refl _)]

/-- CLAIM C4.  Normal-case insertion: when the escape leaf is not the
only child of its parent, HFadd replaces the escape leaf in the child
slot of its parent by a fresh interior node (handle nI) carrying the
weight of the escape leaf, attaches the escape leaf as its low child and
a fresh weight-0 leaf (handle nL) holding the new symbol as its high
child, extends the sibling index with first the interior node and then
the new leaf (so the order reads escape leaf, new leaf, interior node,
rest), and returns the new leaf, never the interior node. -/
theorem C4_normal_insert (st : HFtree) (t : ATerm) (p oh : Nat) (orest : List Nat)
    (hp : (getN st st.top).parent = some p)
    (hhigh : (getN st p).high ≠ none)
    (hplen : p < st.nodes.length)
    (htoplen : st.top < st.nodes.length)
    (hne : st.top ≠ p)
    (horder : st.order = oh :: orest) :
    (HFadd st t).2 = st.nodes.length + 1 ∧
    st.nodes.length + 1 ≠ st.nodes.length ∧
    getN (HFadd st t).1 (st.nodes.length)
      = { high := some (st.nodes.length + 1), low := some st.top, parent := some p,
          frequency := (getN st st.top).frequency, term := ATerm.null } ∧
    getN (HFadd st t).1 (st.nodes.length + 1)
      = { high := none, low := none, parent := some st.nodes.length,
          frequency := 0, term := t } ∧
    getN (HFadd st t).1 st.top = { getN st st.top with parent := some st.nodes.length } ∧
    (if (getN st p).low = some st.top
      then (getN (HFadd st t).1 p).low = some st.nodes.length
        ∧ (getN (HFadd st t).1 p).high = (getN st p).high
      else (getN (HFadd st t).1 p).high = some st.nodes.length
        ∧ (getN (HFadd st t).1 p).low = (getN st p).low) ∧
    (HFadd st t).1.order = oh :: (st.nodes.length + 1) :: st.nodes.length :: orest ∧
    (HFadd st t).1.top = st.top ∧ (HFadd st t).1.codes = st.codes := by
  have h3 : st.top ≠ st.nodes.length := Nat.ne_of_lt htoplen
  have h4 : p ≠ st.nodes.length := Nat.ne_of_lt hplen
  have h5 : st.top ≠ st.nodes.length + 1 := by omega
  have h6 : p ≠ st.nodes.length + 1 := by omega
  have h7 : st.nodes.length + 1 ≠ st.nodes.length := by omega
  have h8 : st.nodes.length ≠ st.nodes.length + 1 := by omega
  have hlt1 : st.nodes.length < st.nodes.length + 1 := by omega
  have hlt2 : st.nodes.length < st.nodes.length + 1 + 1 := by omega
  have hlt3 : st.nodes.length + 1 < st.nodes.length + 1 + 1 := by omega
  have hlt4 : p < st.nodes.length + 1 := by omega
  have hlt5 : st.top < st.nodes.length + 1 := by omega
  have h9 : p ≠ st.top := Ne.symm hne
  have h3r : st.nodes.length ≠ st.top := by omega
  have h4r : st.nodes.length ≠ p := by omega
  have h5r : st.nodes.length + 1 ≠ st.top := by omega
  have h6r : st.nodes.length + 1 ≠ p := by omega
  rcases hM : HTmember st.terms t with _ | i
  all_goals by_cases hlow : (getN st p).low = some st.top
  all_goals simp only [getN] at hp hhigh hlow
  all_goals
    simp only [HFadd, getN, setN, BLinsert, hp, hM, hlow, hhigh, horder,
      getD_set_self, getD_set_ne, getD_append_lt, getD_append_self,
      List.length_append, List.length_set, List.length_cons, List.length_nil,
      List.length_singleton,
      hplen, htoplen, hne, h3, h4, h5, h6, h7, h8, h9, h3r, h4r, h5r, h6r,
      hlt1, hlt2, hlt3, hlt4, hlt5,
      if_true, if_false, eq_self_iff_true, ne_eq, not_false_iff, not_true,
      HFnode.mk.injEq, List.cons.injEq, Option.some.injEq,
      and_true, true_and, and_self]

/-- Witness for C4: the insertion of B into the state reached by
encoding A on a fresh engine, where the escape leaf (handle 1) has
parent 0 (the root) whose high slot is already occupied by the leaf of
A. -/
theorem C4_normal_insert_witness :
    ((getN stA stA.top).parent = some 0 ∧ (getN stA 0).high ≠ none ∧
      0 < stA.nodes.length ∧ stA.top < stA.nodes.length ∧ stA.top ≠ 0 ∧
      stA.order = 1 :: [2, 0]) ∧
    ((HFadd stA termB).2 = stA.nodes.length + 1 ∧
      stA.nodes.length + 1 ≠ stA.nodes.length ∧
      getN (HFadd stA termB).1 (stA.nodes.length)
        = { high := some (stA.nodes.length + 1), low := some stA.top,
            parent := some 0, frequency := (getN stA stA.top).frequency,
            term := ATerm.null } ∧
      getN (HFadd stA termB).1 (stA.nodes.length + 1)
        = { high := none, low := none, parent := some stA.nodes.length,
            frequency := 0, term := termB } ∧
      getN (HFadd stA termB).1 stA.top
        = { getN stA stA.top with parent := some stA.nodes.length } ∧
      (if (getN stA 0).low = some stA.top
        then (getN (HFadd stA termB).1 0).low = some stA.nodes.length
          ∧ (getN (HFadd stA termB).1 0).high = (getN stA 0).high
        else (getN (HFadd stA termB).1 0).high = some stA.nodes.length
          ∧ (getN (HFadd stA termB).1 0).low = (getN stA 0).low) ∧
      (HFadd stA termB).1.order
        = 1 :: (stA.nodes.length + 1) :: stA.nodes.length :: [2, 0] ∧
      (HFadd stA termB).1.top = stA.top ∧ (HFadd stA termB).1.codes = stA.codes) := by
  refine ⟨⟨by decide, by decide, by decide, by decide, by decide, by decide⟩, ?_⟩
  exact C4_normal_insert stA termB 0 1 [2, 0] (by decide) (by decide)
    (by decide) (by decide) (by decide) (by decide)

/-- CLAIM C7.  Literal-read-failure atomicity: when the literal coder
fails to recover a symbol after the decoder reached the escape leaf, the
decode returns the failure value 0 with the escape marker left in the
output parameter, and the engine state (tree, sibling index, symbol
table, escape leaf) is exactly what it was before the call.  Stated as a
one-step fact at the escape leaf and as a whole-run fact identified by
the observable failure outcome, for both decoder variants. -/
theorem C7_literal_failure_atomic :
    (∀ (fuel : Nat) (stream : List Tok) (st : HFtree) (term : ATerm) (cur : Nat),
        (getN st cur).high = none → (getN st cur).low = none →
        (getN st cur).term = ESCAPE_SEQUENCE → LZreadATerm stream = none →
        HFdecodeATermLoop (fuel + 1) stream st term (some cur)
          = (st, stream, ESCAPE_SEQUENCE, 0)) ∧
    (∀ (stream : List Tok) (st : HFtree) (termIn : ATerm),
        termIn ≠ ESCAPE_SEQUENCE →
        (HFdecodeATerm stream st termIn).2.2.2 = 0 →
        (HFdecodeATerm stream st termIn).2.2.1 = ESCAPE_SEQUENCE →
        (HFdecodeATerm stream st termIn).1 = st) ∧
    (∀ (fuel : Nat) (stream : List Tok) (st : HFtree) (index : Int) (cur : Nat),
        (getN st cur).high = none → (getN st cur).low = none →
        (getN st cur).term = ESCAPE_SEQUENCE → LZreadInt stream = none →
        HFdecodeIndexLoop (fuel + 1) stream st index (some cur)
          = (st, stream, index, 0)) ∧
    (∀ (stream : List Tok) (st : HFtree) (indexIn : Int),
        indexIn ≠ NO_INT →
        (HFdecodeIndex stream st indexIn).2.2.2 = 0 →
        (HFdecodeIndex stream st indexIn).2.2.1 = indexIn →
        (HFdecodeIndex stream st indexIn).1 = st) := by
  refine ⟨?_, ?_, ?_, ?_⟩
  · intro fuel stream st term cur h1 h2 h3 h4
    simp only [HFdecodeATermLoop, if_pos (And.intro h1 h2), if_pos h3, h4, h3]
    simp
  · intro stream st termIn h0 h1 h2
    simp only [HFdecodeATerm] at h1 h2 ⊢
    rcases decATermLoop_ret0 _ stream st termIn (some st.codes) h0 h1 with
      h | ⟨_, hst⟩ | ⟨hterm, _⟩
    · rw [h2] at h
      exact absurd h (by decide)
    · exact hst
    · rw [h2] at hterm
      exact absurd hterm.symm h0
  · intro fuel stream st index cur h1 h2 h3 h4
    simp only [HFdecodeIndexLoop, if_pos (And.intro h1 h2), if_pos h3, h4]
  · intro stream st indexIn h0 h1 h2
    simp only [HFdecodeIndex] at h1 h2 ⊢
    rcases decIndexLoop_ret0 _ stream st indexIn (some st.codes) h1 with h | ⟨_, hst⟩
    · rw [h2] at h
      exact absurd h h0
    · exact hst

/-- Witness for C7: the one-step fact at the escape leaf of a fresh
engine with an empty stream, and the whole-run fact on the stream holding
the single bit 0, whose descent reaches the escape leaf and whose
literal read fails. -/
theorem C7_literal_failure_atomic_witness :
    ((getN st0 1).high = none ∧ (getN st0 1).low = none ∧
      (getN st0 1).term = ESCAPE_SEQUENCE ∧ LZreadATerm ([] : List Tok) = none ∧
      HFdecodeATermLoop 1 [] st0 ATerm.null (some 1) = (st0, [], ESCAPE_SEQUENCE, 0)) ∧
    (ATerm.null ≠ ESCAPE_SEQUENCE ∧
      (HFdecodeATerm [Tok.bit false] st0 ATerm.null).2.2.2 = 0 ∧
      (HFdecodeATerm [Tok.bit false] st0 ATerm.null).2.2.1 = ESCAPE_SEQUENCE ∧
      (HFdecodeATerm [Tok.bit false] st0 ATerm.null).1 = st0) := by
  refine ⟨⟨by decide, by decide, by decide, by decide, ?_⟩,
    ⟨by decide, by decide, by decide, ?_⟩⟩
  · exact C7_literal_failure_atomic.1 0 [] st0 ATerm.null 1
      (by decide) (by decide) (by decide) (by decide)
  · exact C7_literal_failure_atomic.2.1 [Tok.bit false] st0 ATerm.null
      (by decide) (by decide) (by decide)

/-- CLAIM C6, amended.  On sentinel decode the term decoder returns the
pair (null term, 0) and the index decoder (NO_INT, 0).  Every return of 0
is either such a sentinel result, or a literal-read failure, which in the
term variant leaves the escape marker in the output parameter and the
engine untouched, or an exhaustion failure, which leaves the output
parameter at the value passed in and the engine untouched.  The sentinel
result is therefore distinguishable from a literal-read failure, and
from a bit-stream exhaustion exactly when the value passed in the output
parameter is not itself the null term (respectively NO_INT). -/
theorem C6_amended :
    (∀ (stream : List Tok) (st : HFtree) (termIn : ATerm),
        termIn ≠ ESCAPE_SEQUENCE →
        (HFdecodeATerm stream st termIn).2.2.2 = 0 →
        ((HFdecodeATerm stream st termIn).2.2.1 = ATerm.null
          ∨ ((HFdecodeATerm stream st termIn).2.2.1 = ESCAPE_SEQUENCE
              ∧ (HFdecodeATerm stream st termIn).1 = st)
          ∨ ((HFdecodeATerm stream st termIn).2.2.1 = termIn
              ∧ (HFdecodeATerm stream st termIn).1 = st))) ∧
    ATerm.null ≠ ESCAPE_SEQUENCE ∧
    (∀ (stream : List Tok) (st : HFtree) (indexIn : Int),
        (HFdecodeIndex stream st indexIn).2.2.2 = 0 →
        ((HFdecodeIndex stream st indexIn).2.2.1 = NO_INT
          ∨ ((HFdecodeIndex stream st indexIn).2.2.1 = indexIn
              ∧ (HFdecodeIndex stream st indexIn).1 = st))) := by
  refine ⟨?_, by decide, ?_⟩
  · intro stream st termIn h0 h1
    simp only [HFdecodeATerm] at h1 ⊢
    exact decATermLoop_ret0 _ stream st termIn _ h0 h1
  · intro stream st indexIn h1
    simp only [HFdecodeIndex] at h1 ⊢
    exact decIndexLoop_ret0 _ stream st indexIn _ h1

/-- Witness for the amended C6: the classification applied to concrete
failing runs of both decoders on the empty stream. -/
theorem C6_amended_witness :
    (ATerm.appl 7 ≠ ESCAPE_SEQUENCE) ∧
    ((HFdecodeATerm [] st0 (ATerm.appl 7)).2.2.2 = 0) ∧
    ((HFdecodeATerm [] st0 (ATerm.appl 7)).2.2.1 = ATerm.null
      ∨ ((HFdecodeATerm [] st0 (ATerm.appl 7)).2.2.1 = ESCAPE_SEQUENCE
          ∧ (HFdecodeATerm [] st0 (ATerm.appl 7)).1 = st0)
      ∨ ((HFdecodeATerm [] st0 (ATerm.appl 7)).2.2.1 = ATerm.appl 7
          ∧ (HFdecodeATerm [] st0 (ATerm.appl 7)).1 = st0)) ∧
    ((HFdecodeIndex [] st0 5).2.2.2 = 0) ∧
    ((HFdecodeIndex [] st0 5).2.2.1 = NO_INT
      ∨ ((HFdecodeIndex [] st0 5).2.2.1 = 5
          ∧ (HFdecodeIndex [] st0 5).1 = st0)) := by
  refine ⟨by decide, by decide, ?_, by decide, ?_⟩
  · exact C6_amended.1 [] st0 (ATerm.appl 7) (by decide) (by decide)
  · exact C6_amended.2.2 [] st0 5 (by decide)

/-- CLAIM C10.  Decoding end of stream still mutates the model: when the
decoder reaches the escape leaf and the literal read back is the sentinel
(NO_ATERM for terms, NO_INT for indices), the sentinel is inserted into
the tree via HFadd and a full weight update is run on the new leaf before
the end-of-stream result is returned; shown in general at the escape
leaf for both variants, and end to end on a fresh engine, where the
sentinel gains a leaf of weight 1 registered in the symbol table. -/
theorem C10_eos_decode_mutates :
    (∀ (fuel : Nat) (stream stream1 : List Tok) (st : HFtree) (term : ATerm) (cur : Nat),
        (getN st cur).high = none → (getN st cur).low = none →
        (getN st cur).term = ESCAPE_SEQUENCE →
        LZreadATerm stream = some (NO_ATERM, stream1) →
        HFdecodeATermLoop (fuel + 1) stream st term (some cur)
          = (HFupdate (HFadd st NO_ATERM).1 (HFadd st NO_ATERM).2,
              stream1, ATerm.null, 0)) ∧
    (∀ (fuel : Nat) (stream stream1 : List Tok) (st : HFtree) (index : Int) (cur : Nat),
        (getN st cur).high = none → (getN st cur).low = none →
        (getN st cur).term = ESCAPE_SEQUENCE →
        LZreadInt stream = some (NO_INT, stream1) →
        HFdecodeIndexLoop (fuel + 1) stream st index (some cur)
          = (HFupdate (HFadd st (ATerm.int NO_INT)).1 (HFadd st (ATerm.int NO_INT)).2,
              stream1, NO_INT, 0)) ∧
    ((HFdecodeATerm [Tok.bit false, Tok.lit NO_ATERM] st0 ATerm.null).1.nodes.length = 3 ∧
      (getN (HFdecodeATerm [Tok.bit false, Tok.lit NO_ATERM] st0 ATerm.null).1 2).term
        = NO_ATERM ∧
      (getN (HFdecodeATerm [Tok.bit false, Tok.lit NO_ATERM] st0 ATerm.null).1 2).frequency
        = 1 ∧
      HTmember (HFdecodeATerm [Tok.bit false, Tok.lit NO_ATERM] st0 ATerm.null).1.terms
        NO_ATERM = some 0 ∧
      (HFdecodeATerm [Tok.bit false, Tok.lit NO_ATERM] st0 ATerm.null).2.2.2 = 0) := by
  refine ⟨?_, ?_, by decide⟩
  · intro fuel stream stream1 st term cur h1 h2 h3 h4
    simp only [HFdecodeATermLoop, if_pos (And.intro h1 h2), if_pos h3, h4]
    simp
  · intro fuel stream stream1 st index cur h1 h2 h3 h4
    simp only [HFdecodeIndexLoop, if_pos (And.intro h1 h2), if_pos h3, h4]
    simp

/-- Witness for C10: the general escape-leaf facts applied on a fresh
engine at the escape leaf (handle 1) with the sentinel literal at the
head of the stream. -/
theorem C10_eos_decode_mutates_witness :
    ((getN st0 1).high = none ∧ (getN st0 1).low = none ∧
      (getN st0 1).term = ESCAPE_SEQUENCE ∧
      LZreadATerm [Tok.lit NO_ATERM] = some (NO_ATERM, []) ∧
      HFdecodeATermLoop 1 [Tok.lit NO_ATERM] st0 ATerm.null (some 1)
        = (HFupdate (HFadd st0 NO_ATERM).1 (HFadd st0 NO_ATERM).2,
            [], ATerm.null, 0)) ∧
    (LZreadInt [Tok.lit (ATerm.int NO_INT)] = some (NO_INT, []) ∧
      HFdecodeIndexLoop 1 [Tok.lit (ATerm.int NO_INT)] st0 0 (some 1)
        = (HFupdate (HFadd st0 (ATerm.int NO_INT)).1 (HFadd st0 (ATerm.int NO_INT)).2,
            [], NO_INT, 0)) := by
  refine ⟨⟨by decide, by decide, by decide, by decide, ?_⟩, ⟨by decide, ?_⟩⟩
  · exact C10_eos_decode_mutates.1 0 [Tok.lit NO_ATERM] [] st0 ATerm.null 1
      (by decide) (by decide) (by decide) (by decide)
  · exact C10_eos_decode_mutates.2.1 0 [Tok.lit (ATerm.int NO_INT)] [] st0 0 1
      (by decide) (by decide) (by decide) (by decide)

/-- CLAIM C5.  No escape-path update on unknown symbols: when a term not
in the symbol table is encoded, the tree state produced by HFencodeATerm
is exactly the one obtained by applying HFadd and then HFupdate on the
new leaf to the unmodified input tree, so no weight on the path from the
root to the escape leaf is incremented for the escape emission itself;
the output stream holds the escape path followed by the literal.
Symmetrically, when the decoder reaches the escape leaf and the literal
coder recovers a term, the resulting tree state is exactly HFadd then
HFupdate on the new leaf applied to the unmodified tree. -/
theorem C5_no_escape_path_update :
    (∀ (st : HFtree) (out : List Tok) (t : ATerm),
        (HTmember st.terms (if t = ATerm.null then NO_ATERM else t) = none
          ∨ ∃ i, HTmember st.terms (if t = ATerm.null then NO_ATERM else t) = some i
              ∧ HTgetPtr st.terms i = none) →
        HFencodeATerm st out t
          = (HFupdate (HFadd st (if t = ATerm.null then NO_ATERM else t)).1
                (HFadd st (if t = ATerm.null then NO_ATERM else t)).2,
              LZwriteATerm (HFwriteCode (st.nodes.length + 1) st st.top out)
                (if t = ATerm.null then NO_ATERM else t),
              0)) ∧
    (∀ (fuel : Nat) (stream stream1 : List Tok) (st : HFtree) (term : ATerm)
        (cur : Nat) (t : ATerm),
        (getN st cur).high = none → (getN st cur).low = none →
        (getN st cur).term = ESCAPE_SEQUENCE →
        LZreadATerm stream = some (t, stream1) →
        (HFdecodeATermLoop (fuel + 1) stream st term (some cur)).1
          = HFupdate (HFadd st t).1 (HFadd st t).2) := by
  constructor
  · intro st out t h
    rcases h with h | ⟨i, hi, hp⟩
    · simp only [HFencodeATerm, h, HFencodeUnknown]
    · simp only [HFencodeATerm, hi, hp, HFencodeUnknown]
  · intro fuel stream stream1 st term cur t h1 h2 h3 h4
    simp only [HFdecodeATermLoop, if_pos (And.intro h1 h2), if_pos h3, h4]
    by_cases ht : t = NO_ATERM
    · simp [ht]
    · simp [ht]

/-- Witness for C5: the encoder fact on a fresh engine with the first
symbol A, and the decoder fact at the escape leaf of a fresh engine with
the literal B at the head of the stream. -/
theorem C5_no_escape_path_update_witness :
    ((HTmember st0.terms (if termA = ATerm.null then NO_ATERM else termA) = none
        ∨ ∃ i, HTmember st0.terms (if termA = ATerm.null then NO_ATERM else termA)
            = some i ∧ HTgetPtr st0.terms i = none) ∧
      HFencodeATerm st0 [] termA
        = (HFupdate (HFadd st0 (if termA = ATerm.null then NO_ATERM else termA)).1
              (HFadd st0 (if termA = ATerm.null then NO_ATERM else termA)).2,
            LZwriteATerm (HFwriteCode (st0.nodes.length + 1) st0 st0.top [])
              (if termA = ATerm.null then NO_ATERM else termA),
            0)) ∧
    ((getN st0 1).term = ESCAPE_SEQUENCE ∧
      LZreadATerm [Tok.lit termB] = some (termB, []) ∧
      (HFdecodeATermLoop 1 [Tok.lit termB] st0 ATerm.null (some 1)).1
        = HFupdate (HFadd st0 termB).1 (HFadd st0 termB).2) := by
  refine ⟨⟨Or.inl (by decide), ?_⟩, ⟨by decide, by decide, ?_⟩⟩
  · exact C5_no_escape_path_update.1 st0 [] termA (Or.inl (by decide))
  · exact C5_no_escape_path_update.2 0 [Tok.lit termB] [] st0 ATerm.null 1 termB
      (by decide) (by decide) (by decide) (by decide)

/-- CLAIM C8.  First bits on the wire: on a fresh engine the escape leaf
is the low child of the root, so the first symbol ever encoded emits the
single bit 0 followed by its literal; encoding the same symbol again as
the second operation emits the single bit 1, its new leaf being the high
child of the root after insertion and update. -/
theorem C8_first_bits :
    (getN st0 st0.codes).low = some st0.top ∧
    (HFencodeATerm st0 [] termA).2.1 = [Tok.bit false, Tok.lit termA] ∧
    (HFencodeATerm st0 [] termA).2.2 = 0 ∧
    (getN stA stA.codes).high = some 2 ∧
    (getN stA 2).term = termA ∧
    (HFencodeATerm stA (HFencodeATerm st0 [] termA).2.1 termA).2.1
      = [Tok.bit false, Tok.lit termA, Tok.bit true] ∧
    (HFencodeATerm stA (HFencodeATerm st0 [] termA).2.1 termA).2.2 = 1 := by
  decide

/-- CLAIM C9.  A null (default constructed) aterm passed to HFencodeATerm
does not fail: it is silently replaced by the NO_ATERM sentinel and
encoded as such, which is exactly how a caller terminates the stream. -/
theorem C9_null_encodes_sentinel :
    (∀ st out, HFencodeATerm st out ATerm.null = HFencodeATerm st out NO_ATERM) ∧
    (HFencodeATerm st0 [] ATerm.null).2.1 = [Tok.bit false, Tok.lit NO_ATERM] ∧
    (HFencodeATerm st0 [] ATerm.null).2.2 = 0 := by
  refine ⟨fun st out => rfl, by decide, by decide⟩

/-- CLAIM C2.  The sibling-property invariant fails on the code: after
encoding A, B, C on a fresh engine the sibling order still lists
non-decreasing weights, but the fourth operation (encoding C again, a
plain known-symbol encode going through HFupdate) leaves the sibling
order with a weight-1 node after a weight-2 node, so the invariant is not
preserved at the next quiescent point. -/
theorem C2_sibling_property_fails :
    siblingNonDecreasing stABC = true ∧ siblingNonDecreasing stABCC = false := by
  decide

/-- CLAIM C3.  The leader swap rule fails on the code: in the state
reached by encoding A, B, C, the update loop started at the leaf of C
(handle 6) picks swap partner HFsuccessor = handle 4 (leaf B), although
the leader of the weight-1 block of handle 6 is handle 2 (leaf A), and
handle 2 is neither the current node, nor its parent, nor one of its
ancestors, so by the claim the swap partner should have been handle 2. -/
theorem C3_swap_partner_not_leader :
    HFsuccessor stABC 6 = some 4 ∧
    Blast stABC 6 = 2 ∧
    (getN stABC 6).parent ≠ some 2 ∧
    isAncestor stABC 2 stABC.nodes.length 6 = false ∧
    (6 : Nat) ≠ 2 ∧ (4 : Nat) ≠ 2 := by
  decide

/-- CLAIM C6, counterexample.  Decoding the sentinel on a fresh engine
returns the pair (term = null, return value 0); but so does the
bit-stream-exhaustion error on the empty stream when the caller passes a
null term in the output parameter (the usual calling convention), while
the fresh tree is provably left untouched by the error and mutated by the
sentinel decode.  The outcome visible to the caller is therefore not
distinguishable from every error case. -/
theorem C6_counterexample :
    ((HFdecodeATerm [Tok.bit false, Tok.lit NO_ATERM] st0 ATerm.null).2.2.1,
      (HFdecodeATerm [Tok.bit false, Tok.lit NO_ATERM] st0 ATerm.null).2.2.2)
      = (ATerm.null, 0) ∧
    ((HFdecodeATerm [] st0 ATerm.null).2.2.1,
      (HFdecodeATerm [] st0 ATerm.null).2.2.2) = (ATerm.null, 0) ∧
    (HFdecodeATerm [] st0 ATerm.null).1 = st0 ∧
    (HFdecodeATerm [Tok.bit false, Tok.lit NO_ATERM] st0 ATerm.null).1 ≠ st0 := by
  decide

end SVC
